import Mathlib

/-!
Verification of the decimal digit-generation routine for IEEE-754 doubles
in `src/ftoa/ken/fltfmt.c` (`xdodtoa` / `kendtoa`).

The C code computes exclusively with IEEE-754 binary64 values, so the
embedding models a double exactly: a finite double is a sign together with
a natural mantissa `m` and an integer exponent `e` denoting the real value
`± m * 2^e`; NaN and the two infinities are separate constructors.  Every
double operation the C code performs (multiplication, subtraction,
division, comparison, conversion to int, `frexp`) is defined exactly on
this representation, with `roundPos` implementing round-to-nearest-even on
an arbitrary positive rational `a / b` — this is the single place where
rounding happens, exactly as in the hardware.  All recursion is structural
(explicit fuel), so every definition evaluates by kernel reduction.
-/

set_option maxRecDepth 100000

namespace Ken

/-- Bit-length worker: plain division by two, fuel-bounded. -/
def blA : ℕ → ℕ → ℕ
  | 0, _ => 0
  | fuel + 1, n => if n = 0 then 0 else blA fuel (n / 2) + 1

/-- Bit-length worker: strips 16-bit chunks. -/
def blB : ℕ → ℕ → ℕ
  | 0, _ => 0
  | fuel + 1, n => if n < 2 ^ 16 then blA 16 n else blB fuel (n / 2 ^ 16) + 16

/-- Bit-length worker: strips 256-bit chunks. -/
def blC : ℕ → ℕ → ℕ
  | 0, _ => 0
  | fuel + 1, n => if n < 2 ^ 256 then blB 16 n else blC fuel (n / 2 ^ 256) + 256

/-- Number of bits of `n`: `0` for `0`, otherwise the unique `k` with
`2^(k-1) ≤ n < 2^k`.  Fuel suffices for all numbers below `2^10496`. -/
def bitLen (n : ℕ) : ℕ := blC 40 n

/-- A model IEEE-754 binary64 value: NaN, a signed infinity, or a finite
value `± m * 2^e` (the sign is kept separate so that `-0.0` is
representable). -/
inductive F64 where
  | nan : F64
  | inf : Bool → F64
  | fin : Bool → ℕ → ℤ → F64
  deriving DecidableEq, Repr

/-- Rational value of a finite `F64` (NaN and infinities map to `0`;
they are never valued in the proofs). -/
def fval : F64 → ℚ
  | .fin s m e => (if s then -1 else 1) * (m : ℚ) * (2 : ℚ) ^ e
  | _ => 0

/-- Round an exact nonnegative quotient with ties to even:
`divRound num den = the integer nearest num/den`, halfway to even. -/
def divRound (num den : ℕ) : ℕ :=
  let q := num / den
  let r := num % den
  if den < 2 * r then q + 1
  else if 2 * r < den then q
  else q + q % 2

/-- Boolean test `b * 2^E ≤ a` for an integer exponent `E`. -/
def shiftGe (a b : ℕ) (E : ℤ) : Bool :=
  if 0 ≤ E then decide (b * 2 ^ E.toNat ≤ a) else decide (b ≤ a * 2 ^ (-E).toNat)

/-- `floorLog2 a b = ⌊log2 (a/b)⌋` for positive naturals `a`, `b`. -/
def floorLog2 (a b : ℕ) : ℤ :=
  let E0 : ℤ := (bitLen a : ℤ) - (bitLen b : ℤ)
  if shiftGe a b E0 then E0 else E0 - 1

/-- Round the positive rational `a / b` to the nearest binary64 value
(round-to-nearest, ties-to-even), with overflow to `+inf`, gradual
underflow to subnormals, and underflow to `+0`.  This is the one rounding
primitive; every inexact double operation of the C code funnels through
it. -/
def roundPos (a b : ℕ) : F64 :=
  if a = 0 then .fin false 0 (-1074)
  else
    let E := floorLog2 a b
    if E < -1022 then
      .fin false (divRound (a * 2 ^ 1074) b) (-1074)
    else
      let s : ℤ := 52 - E
      let num := if 0 ≤ s then a * 2 ^ s.toNat else a
      let den := if 0 ≤ s then b else b * 2 ^ (-s).toNat
      let m0 := divRound num den
      let m1 := if m0 = 2 ^ 53 then 2 ^ 52 else m0
      let E1 := if m0 = 2 ^ 53 then E + 1 else E
      if 1024 ≤ E1 then .inf false else .fin false m1 (E1 - 52)

/-- Transfer a sign onto a (nonnegative) rounding result. -/
def signApply (s : Bool) : F64 → F64
  | .fin _ m e => .fin s m e
  | .inf _ => .inf s
  | .nan => .nan

/-- Three-way comparison on `ℤ` (`compareOfLessAndEq`, written out). -/
def cmpZ (a b : ℤ) : Ordering :=
  if a < b then .lt else if a = b then .eq else .gt

/-- Exact three-way comparison of two finite values. -/
def finCmp (s1 : Bool) (m1 : ℕ) (e1 : ℤ) (s2 : Bool) (m2 : ℕ) (e2 : ℤ) : Ordering :=
  let k := min e1 e2
  let a : ℤ := (if s1 then -1 else 1) * ((m1 * 2 ^ (e1 - k).toNat : ℕ) : ℤ)
  let b : ℤ := (if s2 then -1 else 1) * ((m2 * 2 ^ (e2 - k).toNat : ℕ) : ℤ)
  cmpZ a b

/-- IEEE `<`: false whenever either side is NaN; `-0 < +0` is false. -/
def flt : F64 → F64 → Bool
  | .nan, _ => false
  | _, .nan => false
  | .inf s, .inf t => s && !t
  | .inf s, .fin _ _ _ => s
  | .fin _ _ _, .inf t => !t
  | .fin s1 m1 e1, .fin s2 m2 e2 => finCmp s1 m1 e1 s2 m2 e2 == Ordering.lt

/-- IEEE `==`: false whenever either side is NaN; `-0 == +0` is true. -/
def feq : F64 → F64 → Bool
  | .nan, _ => false
  | _, .nan => false
  | .inf s, .inf t => s == t
  | .inf _, .fin _ _ _ => false
  | .fin _ _ _, .inf _ => false
  | .fin s1 m1 e1, .fin s2 m2 e2 => finCmp s1 m1 e1 s2 m2 e2 == Ordering.eq

/-- IEEE `>=` (used for the `g >= 10` loop condition). -/
def fge (x y : F64) : Bool := flt y x || feq x y

/-- IEEE negation (flips the sign bit, `-NaN` collapsed to NaN). -/
def fneg : F64 → F64
  | .nan => .nan
  | .inf s => .inf (!s)
  | .fin s m e => .fin (!s) m e

/-- IEEE multiplication: the exact product, rounded. -/
def fmul : F64 → F64 → F64
  | .nan, _ => .nan
  | _, .nan => .nan
  | .inf s, .inf t => .inf (xor s t)
  | .inf s, .fin t m _ => if m = 0 then .nan else .inf (xor s t)
  | .fin t m _, .inf s => if m = 0 then .nan else .inf (xor t s)
  | .fin s1 m1 e1, .fin s2 m2 e2 =>
    let e := e1 + e2
    let r := if 0 ≤ e then roundPos (m1 * m2 * 2 ^ e.toNat) 1 else roundPos (m1 * m2) (2 ^ (-e).toNat)
    signApply (xor s1 s2) r

/-- IEEE division: the exact quotient, rounded (finite by zero gives the
signed infinity, as in C). -/
def fdiv : F64 → F64 → F64
  | .nan, _ => .nan
  | _, .nan => .nan
  | .inf _, .inf _ => .nan
  | .inf s, .fin t _ _ => .inf (xor s t)
  | .fin s _ _, .inf t => .fin (xor s t) 0 (-1074)
  | .fin s1 m1 e1, .fin s2 m2 e2 =>
    if m2 = 0 then (if m1 = 0 then .nan else .inf (xor s1 s2))
    else
      let e := e1 - e2
      let r := if 0 ≤ e then roundPos (m1 * 2 ^ e.toNat) m2 else roundPos m1 (m2 * 2 ^ (-e).toNat)
      signApply (xor s1 s2) r

/-- IEEE subtraction: the exact difference, rounded (`x - x = +0`). -/
def fsub : F64 → F64 → F64
  | .nan, _ => .nan
  | _, .nan => .nan
  | .inf s, .inf t => if s = t then .nan else .inf s
  | .inf s, .fin _ _ _ => .inf s
  | .fin _ _ _, .inf t => .inf (!t)
  | .fin s1 m1 e1, .fin s2 m2 e2 =>
    let k := min e1 e2
    let a : ℤ := (if s1 then -1 else 1) * ((m1 * 2 ^ (e1 - k).toNat : ℕ) : ℤ)
    let b : ℤ := (if s2 then -1 else 1) * ((m2 * 2 ^ (e2 - k).toNat : ℕ) : ℤ)
    let dl := a - b
    let r := if 0 ≤ k then roundPos (dl.natAbs * 2 ^ k.toNat) 1 else roundPos dl.natAbs (2 ^ (-k).toNat)
    signApply (decide (dl < 0)) r

/-- C `int` to `double` conversion (exact for the small integers the code
converts). -/
def i2f (z : ℤ) : F64 := .fin (decide (z < 0)) z.natAbs 0

/-- C `double` to `int` conversion: truncation toward zero.  NaN and
infinity map to `0` (the C behaviour is undefined there; the modelled
program never reaches that case on the executions analysed). -/
def f2int : F64 → ℤ
  | .fin s m e =>
    let mag : ℕ := if 0 ≤ e then m * 2 ^ e.toNat else m / 2 ^ (-e).toNat
    if s then -(mag : ℤ) else (mag : ℤ)
  | _ => 0

/-- The binary exponent delivered by `frexp(f, &e)`: `f = x * 2^e` with
`0.5 ≤ x < 1` (meaningful for nonzero finite `f`, which is the only way
the C code uses it). -/
def frexpE : F64 → ℤ
  | .fin _ m e => (bitLen m : ℤ) + e
  | _ => 0

/-- The double constant `0.0`. -/
def fzero : F64 := .fin false 0 0

/-- The double constant `1.0`. -/
def fone : F64 := .fin false 1 0

/-- The double constant `10.0`. -/
def ften : F64 := .fin false 10 0

/-- The double constant `.301029995664` of `fltfmt.c` (the decimal
literal rounded to the nearest double). -/
def log10of2const : F64 := roundPos 301029995664 (10 ^ 12)

/-- The `maxFloat64` constant of `fltfmt.c`: its 42-digit decimal literal
rounded to the nearest double (which is `DBL_MAX`). -/
def maxFloat64 : F64 := roundPos (179769313486231570814527423731704356798070 * 10 ^ 267) 1

/-- The table `pows10[i] = 1e<i>`: each entry is the decimal literal
`10^i` rounded to the nearest double. -/
def pows10 (i : ℕ) : F64 := roundPos (10 ^ i) 1

/-- The multiplication loop of the C `pow10` for table overflow
(`n -= 159` per step); one iteration always suffices for the guarded
range `n ≤ 308`, but the loop is modelled as written, fuel-bounded. -/
def pow10loop : ℕ → F64 → ℕ → F64
  | 0, d, _ => d
  | fuel + 1, d, n =>
    let n' := n - 159
    if n' < 160 then fmul d (pows10 n')
    else pow10loop fuel (fmul d (pows10 159)) n'

/-- The nonnegative-argument half of the C `pow10`. -/
def pow10nat (n : ℕ) : F64 :=
  if n < 160 then pows10 n else pow10loop 10 (pows10 159) n

/-- The C helper `pow10(n) = 10.0^n`: table lookup, table-product for
large `n`, reciprocal for negative `n`, `0.0` below `DBL_MIN_10_EXP`,
`HUGE_VAL` above `DBL_MAX_10_EXP`. -/
def pow10 (n : ℤ) : F64 :=
  if n < 0 then
    if n < -307 then .fin false 0 0
    else fdiv fone (pow10nat (-n).toNat)
  else if n > 308 then .inf false
  else pow10nat n.toNat

/-!  The digit buffer of `xdodtoa` is modelled as a `List ℕ` of 17 digit
values (the C buffer holds the corresponding ASCII characters `'0'+d`);
the exponent suffix the C code appends with `xaddexp` is passed to the
parser as an integer instead of being rendered into the buffer. -/

/-- Carry propagation of `xadd`, on the reversed prefix of the buffer:
add `v` to the head digit, propagate a carry of `1` leftward; an empty
list reports carry-out. -/
def addrev (v : ℕ) : List ℕ → List ℕ × Bool
  | [] => ([], true)
  | d :: rest =>
    if d + v ≤ 9 then ((d + v) :: rest, false)
    else
      let p := addrev 1 rest
      (0 :: p.1, p.2)

/-- Borrow propagation of `xsub`, on the reversed prefix of the buffer. -/
def subrev (v : ℕ) : List ℕ → List ℕ × Bool
  | [] => ([], true)
  | d :: rest =>
    if v ≤ d then ((d - v) :: rest, false)
    else
      let p := subrev 1 rest
      (9 :: p.1, p.2)

/-- The C `xadd(a, n, v)`: add `v` at digit position `n` with carry
propagation toward position 0; out of range `n` is a no-op returning 0;
carry out of position 0 writes `'1'` at position 0 and returns 1. -/
def xadd (s : List ℕ) (n : ℤ) (v : ℕ) : List ℕ × Bool :=
  if n < 0 ∨ 17 ≤ n then (s, false)
  else
    let k := n.toNat + 1
    let p := addrev v (s.take k).reverse
    let q := p.1.reverse
    let q := if p.2 then 1 :: q.drop 1 else q
    (q ++ s.drop k, p.2)

/-- The C `xsub(a, n, v)`: subtract `v` at digit position `n` with borrow
propagation; borrow past position 0 writes `'9'` at position 0 and
returns 1 (the C version has no range guard; it is called with
`n = NSIGNIF-1` only). -/
def xsub (s : List ℕ) (n : ℕ) (v : ℕ) : List ℕ × Bool :=
  let k := n + 1
  let p := subrev v (s.take k).reverse
  let q := p.1.reverse
  let q := if p.2 then 9 :: q.drop 1 else q
  (q ++ s.drop k, p.2)

/-- Numeric value of the digit buffer read as a decimal integer. -/
def digitsVal (s : List ℕ) : ℕ := s.foldl (fun a d => a * 10 + d) 0

/-- Modelled from the spec: the external collaborator `fmtstrtod` (whose
definition is not part of this repository) is assumed to be an exact,
correctly-rounded decimal parser — `parseDecimal` returns the double
nearest to `D * 10^x` under round-to-nearest-even.  The C code parses the
17 buffer digits followed by the exponent suffix `e(e-16)` written by
`xaddexp`, so it is invoked as `fmtstrtod (digitsVal s) (e - 16)`. -/
def fmtstrtod (D : ℕ) (x : ℤ) : F64 :=
  if 0 ≤ x then roundPos (D * 10 ^ x.toNat) 1 else roundPos D (10 ^ (-x).toNat)

/-- Decimal-exponent estimate of `xdodtoa`: `frexp` then multiplication
by the double constant `.301029995664`, truncated to `int`. -/
def estimateE (f : F64) : ℤ := f2int (fmul (i2f (frexpE f)) log10of2const)

/-- The `while(g < 1) { e--; g = h * pow10(d-e); }` loop, fuel-bounded. -/
def normDown : ℕ → ℤ → F64 → ℤ → F64 → ℤ × F64
  | 0, _, _, e, g => (e, g)
  | fuel + 1, d, h, e, g =>
    if flt g fone then normDown fuel d h (e - 1) (fmul h (pow10 (d - (e - 1))))
    else (e, g)

/-- The `while(g >= 10) { e++; g = h * pow10(d-e); }` loop, fuel-bounded. -/
def normUp : ℕ → ℤ → F64 → ℤ → F64 → ℤ × F64
  | 0, _, _, e, g => (e, g)
  | fuel + 1, d, h, e, g =>
    if fge g ften then normUp fuel d h (e + 1) (fmul h (pow10 (d - (e + 1))))
    else (e, g)

/-- Scaling stage of `xdodtoa` (for the magnitude `f ≥ 0`): estimate the
decimal exponent, split the power of ten in two factors when the estimate
lies outside `[-150, 150]`, then adjust `e` until `1 ≤ g < 10`; value `0`
bypasses the stage with `e = 0`. -/
def scaleToDecimal (f : F64) : ℤ × F64 :=
  if feq f fzero = false then
    let e0 := estimateE f
    let inRange := -150 ≤ e0 ∧ e0 ≤ 150
    let d : ℤ := if inRange then 0 else Int.tdiv e0 2
    let h := if inRange then f else fmul f (pow10 (-d))
    let g0 := fmul h (pow10 (d - e0))
    let p := normDown 1200 d h e0 g0
    normUp 1200 d h p.1 p.2
  else (0, f)

/-- Digit extraction: `d = g; s1[i] = d + '0'; g = (g - d) * 10`,
17 times. -/
def extract : ℕ → F64 → List ℕ
  | 0, _ => []
  | fuel + 1, g =>
    let d := f2int g
    d.toNat :: extract fuel (fmul (fsub g (i2f d)) ften)

/-- The fast path of `xdodtoa` (decimal rounding to eliminate nines):
zero the last two digits and re-parse; on failure increment position
`NSIGNIF-3` (carry may bump `e`) and re-parse; `none` means both parses
missed and the saved buffer and exponent are restored. -/
def fastTry (f : F64) (s1 : List ℕ) (e : ℤ) : Option (List ℕ × ℤ) :=
  let sz := s1.take 15 ++ [0, 0]
  if feq (fmtstrtod (digitsVal sz) (e - 16)) f then some (sz, e)
  else
    let p := xadd sz 14 1
    let e2 := if p.2 then e + 1 else e
    if feq (fmtstrtod (digitsVal p.1) (e2 - 16)) f then some (p.1, e2)
    else none

/-- The round-trip correction loop of `xdodtoa` (`for(d = 0; d < 10; d++)`):
parse the buffer with exponent `e - 16`; if the parsed value is below the
target magnitude, `xadd` 1 at position 16 (`e--` on carry-out); if above,
`xsub` 1 at position 16 (`e++` on borrow-out); stop on equality.  After
10 iterations the loop falls through with the current state. -/
def corrLoop : ℕ → F64 → List ℕ → ℤ → List ℕ × ℤ
  | 0, _, s, e => (s, e)
  | fuel + 1, f, s, e =>
    let g := fmtstrtod (digitsVal s) (e - 16)
    if flt g f then
      let p := xadd s 16 1
      corrLoop fuel f p.1 (if p.2 then e - 1 else e)
    else if flt f g then
      let p := xsub s 16 1
      corrLoop fuel f p.1 (if p.2 then e + 1 else e)
    else (s, e)

/-- Digit-generation core of `xdodtoa` on the magnitude: scaling,
extraction, fast path (tried when `c2 >= NSIGNIF-2`), correction loop.
Returns the 17-digit buffer and the decimal exponent `e`. -/
def genDigits (f : F64) (chr : Char) (prec : ℤ) : List ℕ × ℤ :=
  let p := scaleToDecimal f
  let e := p.1
  let s1 := extract 17 p.2
  let c2 := prec + 1 + (if chr = 'f' then e else 0)
  if 15 ≤ c2 then
    match fastTry f s1 e with
    | some r => r
    | none => corrLoop 10 f s1 e
  else corrLoop 10 f s1 e

/-- `genDigits` with the fast-path block removed (the variant §9 of the
spec asks to compare against: only the fallback correction loop runs). -/
def genDigitsNoFast (f : F64) (_chr : Char) (_prec : ℤ) : List ℕ × ℤ :=
  let p := scaleToDecimal f
  corrLoop 10 f (extract 17 p.2) p.1

/-- Final rounding and digit-count selection of `xdodtoa` (from label
`found`): add 5 one place past the kept digits (position `prec+1+e` in
`'f'` format, `prec+1` otherwise), clamp the kept count, and in `'f'`
format force `c2 = 0`, `e = -prec-1` when the count went negative.
Returns the kept digits and `decpt = e + 1`. -/
def roundAdjust (chr : Char) (prec : ℤ) (s : List ℕ) (e : ℤ) : List ℕ × ℤ :=
  let c2 := prec + 1
  if chr = 'f' then
    let p := xadd s (c2 + e) 5
    let e1 := if p.2 then e + 1 else e
    let c2a := c2 + e1
    let c2b := if c2a < 0 then 0 else c2a
    let e2 := if c2a < 0 then -prec - 1 else e1
    let c2c := if 17 < c2b then 17 else c2b
    (p.1.take c2c.toNat, e2 + 1)
  else
    let p := xadd s c2 5
    let e1 := if p.2 then e + 1 else e
    let c2c := if 17 < c2 then 17 else c2
    (p.1.take c2c.toNat, e1 + 1)

/-- Conversion result: the digit characters (no sign, no decimal point),
the decimal point position, and the sign flag. -/
structure DtoaOut where
  digits : List Char
  decpt : ℤ
  sign : Bool
  deriving DecidableEq, Repr

/-- Digit value to ASCII character. -/
def digitChar (d : ℕ) : Char := Char.ofNat (48 + d)

/-- The two clamps `if(prec > NSIGNIF) prec = NSIGNIF; if(prec < 0)
prec = 0;` at the top of `xdodtoa`. -/
def clampPrec (prec : ℤ) : ℤ :=
  if (if 17 < prec then 17 else prec) < 0 then 0 else if 17 < prec then 17 else prec

/-- Main path of `xdodtoa` for a finite in-range value: digit generation
on the magnitude followed by final rounding. -/
def xdodtoaFin (f1 : F64) (chr : Char) (prec : ℤ) (sign : Bool) : DtoaOut :=
  let g := genDigits f1 chr prec
  let r := roundAdjust chr prec g.1 g.2
  ⟨r.1.map digitChar, r.2, sign⟩

/-- Body of `xdodtoa` after the format-character normalisation and the
precision clamps: NaN and infinity short-circuit with `decpt = 9999`;
otherwise sign extraction and the main digit path on the magnitude. -/
def xdodtoaC (f : F64) (chr : Char) (prec : ℤ) : DtoaOut :=
  if feq f f = false then ⟨['n', 'a', 'n'], 9999, false⟩
  else
    let sign := flt f fzero
    let f1 := if sign then fneg f else f
    if flt maxFloat64 f1 || flt f1 (fneg maxFloat64) then ⟨['i', 'n', 'f'], 9999, sign⟩
    else xdodtoaFin f1 chr prec sign

/-- The C `xdodtoa(s1, f, chr, prec, decpt, rsign)`: `'F'` is treated as
`'f'` and the precision is clamped to `[0, NSIGNIF]` before the body
runs. -/
def xdodtoa (f : F64) (chr0 : Char) (prec0 : ℤ) : DtoaOut :=
  xdodtoaC f (if chr0 = 'F' then 'f' else chr0) (clampPrec prec0)

/-- Main path of the fast-path-free variant for a finite in-range
value. -/
def xdodtoaFinNoFast (f1 : F64) (chr : Char) (prec : ℤ) (sign : Bool) : DtoaOut :=
  let g := genDigitsNoFast f1 chr prec
  let r := roundAdjust chr prec g.1 g.2
  ⟨r.1.map digitChar, r.2, sign⟩

/-- `xdodtoa` with the fast-path block removed (spec §9: the variant whose
observable equality with `xdodtoa` claim C4 asserts). -/
def xdodtoaNoFast (f : F64) (chr0 : Char) (prec0 : ℤ) : DtoaOut :=
  let chr := if chr0 = 'F' then 'f' else chr0
  let prec := clampPrec prec0
  if feq f f = false then ⟨['n', 'a', 'n'], 9999, false⟩
  else
    let sign := flt f fzero
    let f1 := if sign then fneg f else f
    if flt maxFloat64 f1 || flt f1 (fneg maxFloat64) then ⟨['i', 'n', 'f'], 9999, sign⟩
    else xdodtoaFinNoFast f1 chr prec sign

/-- The `switch(mode)` of `kendtoa`: modes 2,4,6,8 format like `'e'`,
modes 3,5,7,9 like `'f'`, modes 0,1 and anything else like `'g'`. -/
def modeChr (mode : ℤ) : Char :=
  if mode = 2 ∨ mode = 4 ∨ mode = 6 ∨ mode = 8 then 'e'
  else if mode = 3 ∨ mode = 5 ∨ mode = 7 ∨ mode = 9 then 'f'
  else 'g'

/-- The precision computation of `kendtoa`: non-`'f'` formats decrement a
nonzero `ndigits`; the result is clamped to `NSIGNIF` and `ndigits = 0`
selects the full `NSIGNIF = 17` digits. -/
def kendtoaPrec (chr : Char) (ndigits0 : ℤ) : ℤ :=
  let nd := if chr ≠ 'f' ∧ ndigits0 ≠ 0 then ndigits0 - 1 else ndigits0
  let p := if 17 < nd then 17 else nd
  if nd = 0 then 17 else p

/-- Trailing-zero strip of `kendtoa`, on the reversed digit list: drop
leading `'0'` characters but never below one remaining character. -/
def trimAux : List Char → List Char
  | [] => []
  | [c] => [c]
  | c :: rest => if c = '0' then trimAux rest else c :: rest

/-- The trailing-zero strip of `kendtoa`: removes trailing `'0'`
characters, but never trims below one digit (an empty buffer stays
empty). -/
def trimZeros (l : List Char) : List Char := (trimAux l.reverse).reverse

/-- The C `kendtoa(f, mode, ndigits, decpt, rsign, rve)`: mode mapping,
precision derivation, `xdodtoa`, trailing-zero strip.  The digit list of
the result is the buffer up to the terminator written at `*es`, i.e.
exactly the digits up to the `rve` end cursor. -/
def kendtoa (f : F64) (mode : ℤ) (ndigits : ℤ) : DtoaOut :=
  let chr := modeChr mode
  let out := xdodtoa f chr (kendtoaPrec chr ndigits)
  ⟨trimZeros out.digits, out.decpt, out.sign⟩

/-- Numeric value of a digit-character list. -/
def charsVal (l : List Char) : ℕ := l.foldl (fun a c => a * 10 + (c.toNat - 48)) 0

/-- Modelled from the spec: the collaborator signature `parseDecimal
(digits, exponent)` of §6 — the double nearest to
`0.<digits> * 10^(exponent+1)` under round-to-nearest-even, expressed via
the same correctly-rounded parser model as `fmtstrtod`. -/
def parseDecimal (digits : List Char) (exponent : ℤ) : F64 :=
  fmtstrtod (charsVal digits) (exponent + 1 - digits.length)

/-- The double `0.99` (whose shortest conversion exercises the fast
path). -/
def f099 : F64 := roundPos 99 100

/-- The double `8.723303909494431e-29 = 7781447110999254 * 2^-146`
(hex `0x1.ba52f56e3bcd6p-94`): its 17 extracted digits start about 17
ulps of the last place below the true value, beyond the reach of the
10-iteration correction loop. -/
def fBad : F64 := .fin false 7781447110999254 (-146)

/-- The double `123.456`. -/
def f123456 : F64 := roundPos 123456 1000

/-- The double `1e-4`. -/
def fSmall : F64 := roundPos 1 10000

/-- The least double above `10.0`: `5629499534213121 * 2^-49`. -/
def fTenUp : F64 := .fin false 5629499534213121 (-49)

/-- Negative zero (sign bit set, zero mantissa; every exponent denotes
the same zero value in this representation). -/
def fNegZero : F64 := .fin true 0 0

/-- Positive zero. -/
def fPosZero : F64 := .fin false 0 0

/-- Well-formedness of a finite double representation: the mantissa fits
in 53 bits and the exponent lies in the binary64 range, so the value
`m * 2^e` is representable as a finite IEEE-754 double. -/
abbrev WfFin (m : ℕ) (e : ℤ) : Prop := m < 2 ^ 53 ∧ -1074 ≤ e ∧ e ≤ 971

/-!  ## Shared lemmas about the embedding -/

theorem cmpZ_ne_lt {a b : ℤ} (h : b ≤ a) : (cmpZ a b == Ordering.lt) = false := by
  unfold cmpZ
  split_ifs with h1 h2
  · exact absurd h1 (not_lt.mpr h)
  · rfl
  · rfl

theorem cmpZ_lt {a b : ℤ} (h : a < b) : (cmpZ a b == Ordering.lt) = true := by
  unfold cmpZ
  rw [if_pos h]
  rfl

theorem feq_fin_self (s : Bool) (m : ℕ) (e : ℤ) : feq (.fin s m e) (.fin s m e) = true := by
  have h : finCmp s m e s m e = Ordering.eq := by simp [finCmp, cmpZ]
  show (finCmp s m e s m e == Ordering.eq) = true
  rw [h]
  rfl

theorem modeChr_cases (mode : ℤ) :
    modeChr mode = 'e' ∨ modeChr mode = 'f' ∨ modeChr mode = 'g' := by
  unfold modeChr
  split_ifs <;> simp

theorem modeChr_ne_F (mode : ℤ) :
    (if modeChr mode = 'F' then 'f' else modeChr mode) = modeChr mode := by
  rcases modeChr_cases mode with h | h | h <;> rw [h] <;> decide

theorem clampPrec_bounds (p : ℤ) : 0 ≤ clampPrec p ∧ clampPrec p ≤ 17 := by
  unfold clampPrec
  split_ifs <;> omega

theorem kendtoaPrec_zero (chr : Char) : kendtoaPrec chr 0 = 17 := by
  unfold kendtoaPrec
  simp

theorem maxFloat64_eq : maxFloat64 = .fin false 9007199254740991 971 := by decide

/-- A well-formed finite double never exceeds `maxFloat64` in magnitude:
the `f > maxFloat64` test of `xdodtoa` is false. -/
theorem flt_max_of_wf {m : ℕ} {e : ℤ} (s : Bool) (h : WfFin m e) :
    flt maxFloat64 (.fin s m e) = false := by
  obtain ⟨h1, _, h3⟩ := h
  rw [maxFloat64_eq]
  show (finCmp false 9007199254740991 971 s m e == Ordering.lt) = false
  unfold finCmp
  have hk : min 971 e = e := min_eq_right h3
  simp only [hk, sub_self, Int.toNat_zero, pow_zero, mul_one]
  apply cmpZ_ne_lt
  have hbound : (m : ℤ) ≤ 9007199254740991 * 2 ^ (971 - e).toNat := by
    have h2 : (1 : ℕ) ≤ 2 ^ (971 - e).toNat := Nat.one_le_two_pow
    have : m ≤ 9007199254740991 * 2 ^ (971 - e).toNat := by
      calc m ≤ 9007199254740991 := by omega
        _ = 9007199254740991 * 1 := by ring
        _ ≤ 9007199254740991 * 2 ^ (971 - e).toNat := Nat.mul_le_mul_left _ h2
    exact_mod_cast this
  rcases s with _ | _ <;> simp <;> push_cast <;> omega

/-- A well-formed finite double is never below `-maxFloat64`: the
`f < -maxFloat64` test of `xdodtoa` is false. -/
theorem flt_negmax_of_wf {m : ℕ} {e : ℤ} (s : Bool) (h : WfFin m e) :
    flt (.fin s m e) (fneg maxFloat64) = false := by
  obtain ⟨h1, _, h3⟩ := h
  rw [maxFloat64_eq]
  show (finCmp s m e true 9007199254740991 971 == Ordering.lt) = false
  unfold finCmp
  have hk : min e 971 = e := min_eq_left h3
  simp only [hk, sub_self, Int.toNat_zero, pow_zero, mul_one]
  apply cmpZ_ne_lt
  have hbound : (m : ℤ) ≤ 9007199254740991 * 2 ^ (971 - e).toNat := by
    have h2 : (1 : ℕ) ≤ 2 ^ (971 - e).toNat := Nat.one_le_two_pow
    have : m ≤ 9007199254740991 * 2 ^ (971 - e).toNat := by
      calc m ≤ 9007199254740991 := by omega
        _ = 9007199254740991 * 1 := by ring
        _ ≤ 9007199254740991 * 2 ^ (971 - e).toNat := Nat.mul_le_mul_left _ h2
    exact_mod_cast this
  rcases s with _ | _ <;> simp <;> push_cast <;> omega

/-- `fneg` on an explicit finite value. -/
theorem fneg_fin (s : Bool) (m : ℕ) (e : ℤ) : fneg (.fin s m e) = .fin (!s) m e := rfl

/-- `f < 0` is false for nonnegative-signed finite values and for zeros of
either sign. -/
theorem flt_fzero_false {m : ℕ} {e : ℤ} (s : Bool) (h : s = false ∨ m = 0) :
    flt (.fin s m e) fzero = false := by
  show (finCmp s m e false 0 0 == Ordering.lt) = false
  unfold finCmp
  simp only [Nat.zero_mul, Nat.cast_zero, mul_zero]
  apply cmpZ_ne_lt
  rcases h with h | h
  · subst h
    have hz : (0 : ℤ) ≤ ((m * 2 ^ (e - min e 0).toNat : ℕ) : ℤ) := Int.natCast_nonneg _
    simpa using hz
  · subst h
    rcases s with _ | _ <;> simp

/-- `f < 0` is true for a negative-signed nonzero finite value. -/
theorem flt_fzero_true {m : ℕ} {e : ℤ} (h : m ≠ 0) :
    flt (.fin true m e) fzero = true := by
  show (finCmp true m e false 0 0 == Ordering.lt) = true
  unfold finCmp
  simp only [Nat.zero_mul, Nat.cast_zero, mul_zero]
  have hpos : (0 : ℤ) < ((m * 2 ^ (e - min e 0).toNat : ℕ) : ℤ) := by
    have : 0 < m * 2 ^ (e - min e 0).toNat :=
      Nat.mul_pos (Nat.pos_of_ne_zero h) (Nat.pos_pow_of_pos _ (by norm_num))
    exact_mod_cast this
  apply cmpZ_lt
  simp only [if_true]
  omega

/-- Reduction of `xdodtoaC` on a well-formed finite value to the main
digit path. -/
theorem xdodtoaC_fin_eq {m : ℕ} {e : ℤ} (s : Bool) (chr : Char) (prec : ℤ)
    (h : WfFin m e) :
    xdodtoaC (.fin s m e) chr prec =
      xdodtoaFin (if flt (.fin s m e) fzero then .fin (!s) m e else .fin s m e) chr prec
        (flt (.fin s m e) fzero) := by
  have h1 : ∀ s' : Bool, flt maxFloat64 (F64.fin s' m e) = false := fun s' => flt_max_of_wf s' h
  have h2 : ∀ s' : Bool, flt (F64.fin s' m e) (fneg maxFloat64) = false :=
    fun s' => flt_negmax_of_wf s' h
  unfold xdodtoaC
  rw [feq_fin_self]
  simp only [Bool.true_eq_false, if_false]
  cases hs : flt (.fin s m e) fzero <;>
    simp only [hs, if_true, if_false, fneg_fin, h1, h2, Bool.or_self, Bool.false_eq_true]

/-!  ### Buffer length invariants -/

theorem addrev_length (v : ℕ) (l : List ℕ) : (addrev v l).1.length = l.length := by
  induction l generalizing v with
  | nil => rfl
  | cons d rest ih =>
    unfold addrev
    split_ifs <;> simp [ih]

theorem subrev_length (v : ℕ) (l : List ℕ) : (subrev v l).1.length = l.length := by
  induction l generalizing v with
  | nil => rfl
  | cons d rest ih =>
    unfold subrev
    split_ifs <;> simp [ih]

theorem xadd_length {st : List ℕ} (hs : st.length = 17) (n : ℤ) (v : ℕ) :
    (xadd st n v).1.length = 17 := by
  unfold xadd
  split_ifs with hg
  · exact hs
  · have hk : n.toNat + 1 ≤ 17 := by omega
    have hlen : (addrev v (st.take (n.toNat + 1)).reverse).1.reverse.length = n.toNat + 1 := by
      rw [List.length_reverse, addrev_length, List.length_reverse, List.length_take]
      omega
    cases hcarry : (addrev v (st.take (n.toNat + 1)).reverse).2 <;>
      simp only [hcarry, if_true, if_false, List.length_append, List.length_cons,
        List.length_drop, List.length_tail, hlen, hs] <;>
      simp [List.length_drop, hlen] <;> omega

theorem xsub_length {st : List ℕ} (hs : st.length = 17) (v : ℕ) :
    (xsub st 16 v).1.length = 17 := by
  unfold xsub
  have hlen : (subrev v (st.take 17).reverse).1.reverse.length = 17 := by
    rw [List.length_reverse, subrev_length, List.length_reverse, List.length_take]
    omega
  cases hcarry : (subrev v (st.take 17).reverse).2 <;>
    simp only [hcarry, if_true, if_false, List.length_append, List.length_cons,
      List.length_drop, hlen, hs] <;>
    simp [List.length_drop, hlen] <;> omega

theorem extract_length (n : ℕ) (g : F64) : (extract n g).length = n := by
  induction n generalizing g with
  | zero => rfl
  | succ k ih => simp [extract, ih]

theorem corrLoop_length (fuel : ℕ) (f : F64) {st : List ℕ} (e : ℤ) (hs : st.length = 17) :
    (corrLoop fuel f st e).1.length = 17 := by
  induction fuel generalizing st e with
  | zero => exact hs
  | succ k ih =>
    simp only [corrLoop]
    split_ifs <;>
      first
        | exact ih _ (xadd_length hs 16 1)
        | exact ih _ (xsub_length hs 1)
        | exact hs

theorem fastTry_length {f : F64} {s1 : List ℕ} {e : ℤ} (hs : s1.length = 17)
    {r : List ℕ × ℤ} (h : fastTry f s1 e = some r) : r.1.length = 17 := by
  simp only [fastTry] at h
  have hz : (s1.take 15 ++ [0, 0] : List ℕ).length = 17 := by
    simp [List.length_take]
    omega
  split_ifs at h
  all_goals
    first
      | (cases h; exact hz)
      | (cases h; exact xadd_length hz 14 1)

theorem genDigits_length (f : F64) (chr : Char) (prec : ℤ) :
    (genDigits f chr prec).1.length = 17 := by
  simp only [genDigits]
  have hs : (extract 17 (scaleToDecimal f).2).length = 17 := extract_length _ _
  split_ifs
  all_goals
    first
      | exact corrLoop_length _ _ _ hs
      | (cases hft : fastTry f (extract 17 (scaleToDecimal f).2) (scaleToDecimal f).1 with
          | none =>
            simp only [hft]
            exact corrLoop_length _ _ _ hs
          | some r =>
            simp only [hft]
            exact fastTry_length hs hft)

theorem roundAdjust_nonf_length {chr : Char} (hchr : chr ≠ 'f') {st : List ℕ}
    (hs : st.length = 17) (e : ℤ) :
    ((roundAdjust chr 17 st e).1).length = 17 := by
  simp only [roundAdjust, if_neg hchr]
  have h18 : (xadd st 18 5).1.length = 17 := xadd_length hs 18 5
  simp [List.length_take, h18]

theorem trimAux_length_le : ∀ l : List Char, (trimAux l).length ≤ l.length
  | [] => le_refl _
  | [c] => le_refl _
  | c :: d :: rest => by
    unfold trimAux
    split_ifs
    · exact (trimAux_length_le (d :: rest)).trans (by simp)
    · simp

theorem trimAux_length_pos : ∀ l : List Char, l ≠ [] → 1 ≤ (trimAux l).length
  | [], h => absurd rfl h
  | [c], _ => by simp [trimAux]
  | c :: d :: rest, _ => by
    unfold trimAux
    split_ifs
    · exact trimAux_length_pos (d :: rest) (by simp)
    · simp

theorem trimZeros_length_le (l : List Char) : (trimZeros l).length ≤ l.length := by
  unfold trimZeros
  rw [List.length_reverse]
  exact (trimAux_length_le l.reverse).trans (by simp)

theorem trimZeros_length_pos {l : List Char} (h : l ≠ []) : 1 ≤ (trimZeros l).length := by
  unfold trimZeros
  rw [List.length_reverse]
  exact trimAux_length_pos l.reverse (by simpa using h)

/-!  ### Bounds on the decimal exponent (no finite value maps to the
`decpt = 9999` sentinel) -/

theorem blA_zero (fuel : ℕ) : blA fuel 0 = 0 := by
  cases fuel <;> simp [blA]

theorem blA_spec : ∀ fuel n, 1 ≤ n → n < 2 ^ fuel →
    2 ^ (blA fuel n - 1) ≤ n ∧ n < 2 ^ blA fuel n ∧ 1 ≤ blA fuel n := by
  intro fuel
  induction fuel with
  | zero =>
    intro n h1 h2
    norm_num at h2
    omega
  | succ f ih =>
    intro n h1 h2
    rw [blA, if_neg (by omega)]
    by_cases hn : n = 1
    · subst hn
      norm_num [blA_zero]
    · have hd1 : 1 ≤ n / 2 := by omega
      have hd2 : n / 2 < 2 ^ f := by
        have h2' : n < 2 ^ f * 2 := by
          have : (2 : ℕ) ^ (f + 1) = 2 ^ f * 2 := by ring
          omega
        omega
      obtain ⟨il, iu, ip⟩ := ih (n / 2) hd1 hd2
      have hLpow : (2 : ℕ) ^ (blA f (n / 2)) = 2 ^ (blA f (n / 2) - 1) * 2 := by
        rw [← pow_succ]
        congr 1
        omega
      have hLpow2 : (2 : ℕ) ^ (blA f (n / 2) + 1) = 2 ^ (blA f (n / 2)) * 2 := by ring
      refine ⟨?_, ?_, by omega⟩
      · have he : 2 ^ (blA f (n / 2) + 1 - 1) = 2 ^ (blA f (n / 2)) := by simp
        rw [he, hLpow]
        omega
      · rw [hLpow2]
        omega

theorem blB_spec : ∀ fuel n, 1 ≤ n → n < 2 ^ (16 * fuel) →
    2 ^ (blB fuel n - 1) ≤ n ∧ n < 2 ^ blB fuel n ∧ 1 ≤ blB fuel n := by
  intro fuel
  induction fuel with
  | zero =>
    intro n h1 h2
    norm_num at h2
    omega
  | succ f ih =>
    intro n h1 h2
    rw [blB]
    split_ifs with hsmall
    · exact blA_spec 16 n h1 hsmall
    · have hd1 : 1 ≤ n / 2 ^ 16 := Nat.one_le_div_iff (by positivity) |>.mpr (by omega)
      have hd2 : n / 2 ^ 16 < 2 ^ (16 * f) := by
        have hlt : n < 2 ^ (16 * f) * 2 ^ 16 := by
          have : (2 : ℕ) ^ (16 * (f + 1)) = 2 ^ (16 * f) * 2 ^ 16 := by
            rw [← pow_add]
            congr 1 <;> ring
          omega
        exact Nat.div_lt_of_lt_mul (by omega)
      obtain ⟨il, iu, ip⟩ := ih (n / 2 ^ 16) hd1 hd2
      have hmod := Nat.div_add_mod n (2 ^ 16)
      have hmodlt : n % 2 ^ 16 < 2 ^ 16 := Nat.mod_lt _ (by positivity)
      set L := blB f (n / 2 ^ 16)
      have e1 : (2 : ℕ) ^ (L + 16 - 1) = 2 ^ (L - 1) * 2 ^ 16 := by
        rw [← pow_add]
        congr 1
        omega
      have e2 : (2 : ℕ) ^ (L + 16) = 2 ^ L * 2 ^ 16 := by
        rw [← pow_add]
      refine ⟨?_, ?_, by omega⟩
      · rw [e1]
        calc 2 ^ (L - 1) * 2 ^ 16 ≤ n / 2 ^ 16 * 2 ^ 16 := Nat.mul_le_mul_right _ il
          _ ≤ n := by omega
      · rw [e2]
        have : n / 2 ^ 16 * 2 ^ 16 ≤ (2 ^ L - 1) * 2 ^ 16 := Nat.mul_le_mul_right _ (by omega)
        have hp : 1 ≤ (2 : ℕ) ^ L := Nat.one_le_two_pow
        calc n = n / 2 ^ 16 * 2 ^ 16 + n % 2 ^ 16 := by omega
          _ ≤ (2 ^ L - 1) * 2 ^ 16 + n % 2 ^ 16 := by omega
          _ < 2 ^ L * 2 ^ 16 := by
              have : (2 ^ L - 1) * 2 ^ 16 + 2 ^ 16 = 2 ^ L * 2 ^ 16 := by
                rw [Nat.sub_mul, Nat.one_mul]
                omega
              omega

theorem blC_spec : ∀ fuel n, 1 ≤ n → n < 2 ^ (256 * fuel) →
    2 ^ (blC fuel n - 1) ≤ n ∧ n < 2 ^ blC fuel n ∧ 1 ≤ blC fuel n := by
  intro fuel
  induction fuel with
  | zero =>
    intro n h1 h2
    norm_num at h2
    omega
  | succ f ih =>
    intro n h1 h2
    rw [blC]
    split_ifs with hsmall
    · exact blB_spec 16 n h1 (by norm_num at hsmall ⊢; omega)
    · have hd1 : 1 ≤ n / 2 ^ 256 := Nat.one_le_div_iff (by positivity) |>.mpr (by omega)
      have hd2 : n / 2 ^ 256 < 2 ^ (256 * f) := by
        have hlt : n < 2 ^ (256 * f) * 2 ^ 256 := by
          have : (2 : ℕ) ^ (256 * (f + 1)) = 2 ^ (256 * f) * 2 ^ 256 := by
            rw [← pow_add]
            congr 1 <;> ring
          omega
        exact Nat.div_lt_of_lt_mul (by omega)
      obtain ⟨il, iu, ip⟩ := ih (n / 2 ^ 256) hd1 hd2
      have hmod := Nat.div_add_mod n (2 ^ 256)
      have hmodlt : n % 2 ^ 256 < 2 ^ 256 := Nat.mod_lt _ (by positivity)
      set L := blC f (n / 2 ^ 256)
      have e1 : (2 : ℕ) ^ (L + 256 - 1) = 2 ^ (L - 1) * 2 ^ 256 := by
        rw [← pow_add]
        congr 1
        omega
      have e2 : (2 : ℕ) ^ (L + 256) = 2 ^ L * 2 ^ 256 := by
        rw [← pow_add]
      refine ⟨?_, ?_, by omega⟩
      · rw [e1]
        calc 2 ^ (L - 1) * 2 ^ 256 ≤ n / 2 ^ 256 * 2 ^ 256 := Nat.mul_le_mul_right _ il
          _ ≤ n := by omega
      · rw [e2]
        have : n / 2 ^ 256 * 2 ^ 256 ≤ (2 ^ L - 1) * 2 ^ 256 := Nat.mul_le_mul_right _ (by omega)
        have hp : 1 ≤ (2 : ℕ) ^ L := Nat.one_le_two_pow
        calc n = n / 2 ^ 256 * 2 ^ 256 + n % 2 ^ 256 := by omega
          _ ≤ (2 ^ L - 1) * 2 ^ 256 + n % 2 ^ 256 := by omega
          _ < 2 ^ L * 2 ^ 256 := by
              have : (2 ^ L - 1) * 2 ^ 256 + 2 ^ 256 = 2 ^ L * 2 ^ 256 := by
                rw [Nat.sub_mul, Nat.one_mul]
                omega
              omega

theorem bitLen_spec {n : ℕ} (h1 : 1 ≤ n) (h2 : n < 2 ^ 10240) :
    2 ^ (bitLen n - 1) ≤ n ∧ n < 2 ^ bitLen n ∧ 1 ≤ bitLen n := by
  apply blC_spec 40 n h1
  calc n < 2 ^ 10240 := h2
    _ = 2 ^ (256 * 40) := by norm_num

theorem bitLen_le_of_lt {n p : ℕ} (h : n < 2 ^ p) (hp : p < 10240) : bitLen n ≤ p := by
  rcases Nat.eq_zero_or_pos n with h0 | h0
  · subst h0
    have : bitLen 0 = 0 := by decide
    omega
  · obtain ⟨hl, _, _⟩ := bitLen_spec h0 (by
      calc n < 2 ^ p := h
        _ ≤ 2 ^ 10240 := Nat.pow_le_pow_right (by norm_num) (by omega))
    by_contra hc
    have hpc : p ≤ bitLen n - 1 := by omega
    have : (2 : ℕ) ^ p ≤ 2 ^ (bitLen n - 1) := Nat.pow_le_pow_right (by norm_num) hpc
    omega

theorem pow_div_le {m p d K : ℕ} (hm : m ≤ 2 ^ p) (h : p ≤ K + d) : m / 2 ^ d ≤ 2 ^ K := by
  rcases le_or_lt d p with hd | hd
  · calc m / 2 ^ d ≤ 2 ^ p / 2 ^ d := Nat.div_le_div_right hm
      _ = 2 ^ (p - d) := Nat.pow_div hd (by norm_num)
      _ ≤ 2 ^ K := Nat.pow_le_pow_right (by norm_num) (by omega)
  · have hz : m / 2 ^ d = 0 := Nat.div_eq_of_lt
      (lt_of_le_of_lt hm (Nat.pow_lt_pow_right (by norm_num) hd))
    simp [hz]

theorem pow_mul_le {m p t K : ℕ} (hm : m ≤ 2 ^ p) (h : p + t ≤ K) : m * 2 ^ t ≤ 2 ^ K := by
  calc m * 2 ^ t ≤ 2 ^ p * 2 ^ t := Nat.mul_le_mul_right _ hm
    _ = 2 ^ (p + t) := by rw [pow_add]
    _ ≤ 2 ^ K := Nat.pow_le_pow_right (by norm_num) h

theorem divRound_le_of {num den B : ℕ} (hden : 0 < den) (h : num < den * B) :
    divRound num den ≤ B := by
  have hq : num / den < B := Nat.div_lt_of_lt_mul (by omega)
  have hm : num % den < den := Nat.mod_lt _ hden
  simp only [divRound]
  have h2 : num / den % 2 ≤ 1 := by omega
  split_ifs <;> omega

theorem floorLog2_lower {a b : ℕ} (ha : 1 ≤ a) (hb : 1 ≤ b)
    (hsa : a < 2 ^ 10240) (hsb : b < 2 ^ 10240) (hE : 0 ≤ floorLog2 a b) :
    b * 2 ^ (floorLog2 a b).toNat ≤ a := by
  obtain ⟨hal, hau, hap⟩ := bitLen_spec ha hsa
  obtain ⟨hbl, hbu, hbp⟩ := bitLen_spec hb hsb
  simp only [floorLog2, shiftGe] at hE ⊢
  split_ifs at hE ⊢ with hsgn hta htb
  · rw [decide_eq_true_eq] at hta
    exact hta
  · -- test false at nonnegative E0: result E0 - 1 with 0 ≤ E0 - 1
    have hk : (((bitLen a : ℤ)) - bitLen b - 1).toNat = bitLen a - bitLen b - 1 := by omega
    rw [hk]
    have hexp : bitLen b + (bitLen a - bitLen b - 1) = bitLen a - 1 := by omega
    refine le_of_lt ?_
    calc b * 2 ^ (bitLen a - bitLen b - 1) < 2 ^ bitLen b * 2 ^ (bitLen a - bitLen b - 1) :=
          mul_lt_mul_of_pos_right hbu (by positivity)
      _ = 2 ^ (bitLen a - 1) := by rw [← pow_add, hexp]
      _ ≤ a := hal
  · exact absurd hE (by omega)
  · exact absurd hE (by omega)

theorem floorLog2_upper_pos {a b : ℕ} (ha : 1 ≤ a) (hb : 1 ≤ b)
    (hsa : a < 2 ^ 10240) (hsb : b < 2 ^ 10240) (hE : 0 ≤ floorLog2 a b + 1) :
    a < b * 2 ^ (floorLog2 a b + 1).toNat := by
  obtain ⟨hal, hau, hap⟩ := bitLen_spec ha hsa
  obtain ⟨hbl, hbu, hbp⟩ := bitLen_spec hb hsb
  simp only [floorLog2, shiftGe] at hE ⊢
  split_ifs at hE ⊢ with hsgn hta htb
  · -- test true at nonnegative E0: show a < b * 2^(E0+1)
    have hk : (((bitLen a : ℤ)) - bitLen b + 1).toNat = bitLen a - bitLen b + 1 := by omega
    rw [hk]
    have h4 : bitLen a ≤ bitLen b - 1 + (bitLen a - bitLen b + 1) := by omega
    calc a < 2 ^ bitLen a := hau
      _ ≤ 2 ^ (bitLen b - 1 + (bitLen a - bitLen b + 1)) :=
          Nat.pow_le_pow_right (by norm_num) h4
      _ = 2 ^ (bitLen b - 1) * 2 ^ (bitLen a - bitLen b + 1) := by rw [← pow_add]
      _ ≤ b * 2 ^ (bitLen a - bitLen b + 1) := Nat.mul_le_mul_right _ hbl
  · -- test false at nonnegative E0: result E0 - 1, so a < b * 2^E0
    rw [decide_eq_true_eq] at hta
    have hk : (((bitLen a : ℤ)) - bitLen b - 1 + 1).toNat =
        (((bitLen a : ℤ)) - bitLen b).toNat := by omega
    rw [hk]
    omega
  · -- test true at negative E0 with 0 ≤ E0 + 1 : E0 = -1, show a < b * 2^0 = b
    have hk : (((bitLen a : ℤ)) - bitLen b + 1).toNat = 0 := by omega
    rw [hk]
    have h5 : (2 : ℕ) ^ bitLen a ≤ 2 ^ (bitLen b - 1) :=
      Nat.pow_le_pow_right (by norm_num) (by omega)
    simp only [pow_zero, mul_one]
    omega
  · -- test false at negative E0: result E0 - 1, but 0 ≤ E0 contradicts
    exact absurd hE (by omega)

theorem floorLog2_upper_neg {a b : ℕ} (ha : 1 ≤ a) (hb : 1 ≤ b)
    (hsa : a < 2 ^ 10240) (hsb : b < 2 ^ 10240) (hE : floorLog2 a b + 1 < 0) :
    a * 2 ^ (-(floorLog2 a b + 1)).toNat < b := by
  obtain ⟨hal, hau, hap⟩ := bitLen_spec ha hsa
  obtain ⟨hbl, hbu, hbp⟩ := bitLen_spec hb hsb
  simp only [floorLog2, shiftGe] at hE ⊢
  split_ifs at hE ⊢ with hsgn hta htb
  · exact absurd hE (by omega)
  · exact absurd hE (by omega)
  · -- test true at negative E0 with E0 + 1 < 0
    have hk : (-(((bitLen a : ℤ)) - bitLen b + 1)).toNat = bitLen b - bitLen a - 1 := by omega
    rw [hk]
    have hexp : bitLen a + (bitLen b - bitLen a - 1) = bitLen b - 1 := by omega
    calc a * 2 ^ (bitLen b - bitLen a - 1) < 2 ^ bitLen a * 2 ^ (bitLen b - bitLen a - 1) :=
          mul_lt_mul_of_pos_right hau (by positivity)
      _ = 2 ^ (bitLen b - 1) := by rw [← pow_add, hexp]
      _ ≤ b := hbl
  · -- test false at negative E0: result E0 - 1, goal a * 2^(-E0) < b
    rw [decide_eq_true_eq] at htb
    have hk : (-(((bitLen a : ℤ)) - bitLen b - 1 + 1)).toNat =
        (-(((bitLen a : ℤ)) - bitLen b)).toNat := by omega
    rw [hk]
    omega
/-- Core bound used to cap the decimal-exponent estimate: whenever the
exact quotient `a / b` is below `2^K` (for a moderate `K`), `roundPos`
returns a finite nonnegative value whose integer truncation is at most
`2^K`. -/
theorem roundPos_trunc_le {a b K : ℕ} (hb : 0 < b) (hK10 : 10 ≤ K) (hK : K ≤ 900)
    (hab : a < b * 2 ^ K) (hsa : a < 2 ^ 10240) (hsb : b < 2 ^ 10240) :
    ∃ m : ℕ, ∃ eZ : ℤ, roundPos a b = .fin false m eZ ∧
      (if 0 ≤ eZ then m * 2 ^ eZ.toNat else m / 2 ^ (-eZ).toNat) ≤ 2 ^ K := by
  simp only [roundPos]
  by_cases ha0 : a = 0
  · subst ha0
    rw [if_pos rfl]
    refine ⟨0, -1074, rfl, ?_⟩
    norm_num
  · rw [if_neg ha0]
    have ha1 : 1 ≤ a := by omega
    set E := floorLog2 a b with hEdef
    have hEltK : E < (K : ℤ) := by
      by_contra hc
      push_neg at hc
      have hlow := floorLog2_lower ha1 hb hsa hsb (by omega)
      rw [← hEdef] at hlow
      have hKE : (2 : ℕ) ^ K ≤ 2 ^ E.toNat := Nat.pow_le_pow_right (by norm_num) (by omega)
      have hmul : b * 2 ^ K ≤ b * 2 ^ E.toNat := Nat.mul_le_mul_left _ hKE
      omega
    by_cases hsub : E < -1022
    · rw [if_pos hsub]
      refine ⟨_, -1074, rfl, ?_⟩
      have hup := floorLog2_upper_neg ha1 hb hsa hsb (by omega)
      have hkey : a * 2 ^ 1074 < b * 2 ^ 52 := by
        set d := (-(E + 1)).toNat with hd
        rcases le_or_lt d 1074 with hdle | hdgt
        · have hsplit : (2 : ℕ) ^ 1074 = 2 ^ d * 2 ^ (1074 - d) := by
            rw [← pow_add]
            congr 1
            omega
          have h52 : 1074 - d ≤ 52 := by omega
          calc a * 2 ^ 1074 = a * 2 ^ d * 2 ^ (1074 - d) := by rw [hsplit, mul_assoc]
            _ < b * 2 ^ (1074 - d) := mul_lt_mul_of_pos_right hup (by positivity)
            _ ≤ b * 2 ^ 52 := Nat.mul_le_mul_left _ (Nat.pow_le_pow_right (by norm_num) h52)
        · have h1 : a * 2 ^ 1074 ≤ a * 2 ^ d :=
            Nat.mul_le_mul_left _ (Nat.pow_le_pow_right (by norm_num) (by omega))
          have h2 : b ≤ b * 2 ^ 52 := Nat.le_mul_of_pos_right _ (by positivity)
          omega
      have hm : divRound (a * 2 ^ 1074) b ≤ 2 ^ 52 := divRound_le_of hb hkey
      have hnotpos : ¬((0 : ℤ) ≤ -1074) := by norm_num
      rw [if_neg hnotpos]
      have htn : ((-(-1074 : ℤ)).toNat) = 1074 := by decide
      rw [htn]
      exact pow_div_le hm (by omega)
    · rw [if_neg hsub]
      -- num < den * 2^53 in all shape cases
      by_cases hs : (0 : ℤ) ≤ 52 - E
      · -- E ≤ 52 : num = a * 2^(52-E), den = b
        simp only [if_pos hs]
        have hnum : a * 2 ^ (52 - E).toNat < b * 2 ^ 53 := by
          by_cases hE1 : (0 : ℤ) ≤ E + 1
          · have hup := floorLog2_upper_pos ha1 hb hsa hsb (by omega)
            have hxy : (E + 1).toNat + (52 - E).toNat = 53 := by omega
            calc a * 2 ^ (52 - E).toNat
                < b * 2 ^ (E + 1).toNat * 2 ^ (52 - E).toNat :=
                  mul_lt_mul_of_pos_right hup (by positivity)
              _ = b * 2 ^ ((E + 1).toNat + (52 - E).toNat) := by rw [mul_assoc, ← pow_add]
              _ = b * 2 ^ 53 := by rw [hxy]
          · have hup := floorLog2_upper_neg ha1 hb hsa hsb (by omega)
            have hxy : (52 - E).toNat = (-(E + 1)).toNat + 53 := by omega
            calc a * 2 ^ (52 - E).toNat
                = a * 2 ^ (-(E + 1)).toNat * 2 ^ 53 := by
                  rw [hxy, pow_add, mul_assoc]
              _ < b * 2 ^ 53 := mul_lt_mul_of_pos_right hup (by positivity)
        have hm0 : divRound (a * 2 ^ (52 - E).toNat) b ≤ 2 ^ 53 := divRound_le_of hb hnum
        set m0 := divRound (a * 2 ^ (52 - E).toNat) b with hm0def
        by_cases hover : m0 = 2 ^ 53
        · -- overflow to 2^52 at exponent E+1
          simp only [if_pos hover]
          rw [if_neg (by omega : ¬((1024 : ℤ) ≤ E + 1))]
          refine ⟨2 ^ 52, E + 1 - 52, rfl, ?_⟩
          by_cases he : (0 : ℤ) ≤ E + 1 - 52
          · rw [if_pos he]
            exact pow_mul_le (le_refl _) (by omega)
          · rw [if_neg he]
            exact pow_div_le (le_refl _) (by omega)
        · simp only [if_neg hover]
          rw [if_neg (by omega : ¬((1024 : ℤ) ≤ E))]
          refine ⟨m0, E - 52, rfl, ?_⟩
          by_cases he : (0 : ℤ) ≤ E - 52
          · rw [if_pos he]
            exact pow_mul_le hm0 (by omega)
          · rw [if_neg he]
            exact pow_div_le hm0 (by omega)
      · -- E > 52 : num = a, den = b * 2^(E-52)
        simp only [if_neg hs]
        have hden : 0 < b * 2 ^ (-(52 - E)).toNat := by positivity
        have hnum : a < b * 2 ^ (-(52 - E)).toNat * 2 ^ 53 := by
          have hup := floorLog2_upper_pos ha1 hb hsa hsb (by omega)
          have hxy : (E + 1).toNat = (-(52 - E)).toNat + 53 := by omega
          calc a < b * 2 ^ (E + 1).toNat := hup
            _ = b * 2 ^ (-(52 - E)).toNat * 2 ^ 53 := by rw [hxy, pow_add, mul_assoc]
        have hm0 : divRound a (b * 2 ^ (-(52 - E)).toNat) ≤ 2 ^ 53 := divRound_le_of hden hnum
        set m0 := divRound a (b * 2 ^ (-(52 - E)).toNat) with hm0def
        by_cases hover : m0 = 2 ^ 53
        · simp only [if_pos hover]
          rw [if_neg (by omega : ¬((1024 : ℤ) ≤ E + 1))]
          refine ⟨2 ^ 52, E + 1 - 52, rfl, ?_⟩
          rw [if_pos (by omega : (0 : ℤ) ≤ E + 1 - 52)]
          exact pow_mul_le (le_refl _) (by omega)
        · simp only [if_neg hover]
          rw [if_neg (by omega : ¬((1024 : ℤ) ≤ E))]
          refine ⟨m0, E - 52, rfl, ?_⟩
          rw [if_pos (by omega : (0 : ℤ) ≤ E - 52)]
          exact pow_mul_le hm0 (by omega)

/-!  ### Decimal-exponent bounds: the `9999` sentinel is unreachable on
finite inputs -/

/-- Concrete rounded value of the `.301029995664` constant. -/
theorem log10of2const_eq : log10of2const = .fin false 5422874305198930 (-54) := by
  decide

/-- `fmul` on two finite values, written out. -/
theorem fmul_fin_fin (s1 s2 : Bool) (m1 m2 : ℕ) (e1 e2 : ℤ) :
    fmul (.fin s1 m1 e1) (.fin s2 m2 e2) =
      signApply (xor s1 s2)
        (if 0 ≤ e1 + e2 then roundPos (m1 * m2 * 2 ^ (e1 + e2).toNat) 1
         else roundPos (m1 * m2) (2 ^ (-(e1 + e2)).toNat)) := rfl

/-- The decimal-exponent estimate `(int)(e * .301029995664)` stays within
`[-1024, 1024]` on every well-formed finite representation. -/
theorem estimateE_bound (s : Bool) (m : ℕ) (e : ℤ) (hw : WfFin m e) :
    -1024 ≤ estimateE (.fin s m e) ∧ estimateE (.fin s m e) ≤ 1024 := by
  obtain ⟨hm, hel, heu⟩ := hw
  have hbl : bitLen m ≤ 53 := bitLen_le_of_lt hm (by norm_num)
  simp only [estimateE, frexpE, i2f]
  rw [log10of2const_eq, fmul_fin_fin]
  rw [if_neg (by norm_num : ¬((0 : ℤ) ≤ 0 + -54))]
  have h54 : (-((0 : ℤ) + -54)).toNat = 54 := by decide
  rw [h54]
  set n : ℤ := (bitLen m : ℤ) + e with hn
  have hnl : -1074 ≤ n := by
    have h0 : (0 : ℤ) ≤ (bitLen m : ℤ) := by positivity
    omega
  have hnu : n ≤ 1074 := by
    have hc : (bitLen m : ℤ) ≤ 53 := by exact_mod_cast hbl
    omega
  have hna : n.natAbs ≤ 1074 := by omega
  have habs : n.natAbs * 5422874305198930 < 2 ^ 54 * 2 ^ 10 := by
    have h1 : n.natAbs * 5422874305198930 ≤ 1074 * 5422874305198930 :=
      Nat.mul_le_mul_right _ hna
    have h2 : (1074 : ℕ) * 5422874305198930 < 2 ^ 54 * 2 ^ 10 := by norm_num
    omega
  have hbig : (2 : ℕ) ^ 54 * 2 ^ 10 ≤ 2 ^ 10240 := by
    rw [← pow_add]
    exact Nat.pow_le_pow_right (by norm_num) (by norm_num)
  have hsmall : (2 : ℕ) ^ 54 < 2 ^ 54 * 2 ^ 10 := by norm_num
  obtain ⟨m2, eZ, hr, htr⟩ :=
    roundPos_trunc_le (a := n.natAbs * 5422874305198930) (b := 2 ^ 54) (K := 10)
      (by positivity) (le_refl 10) (by norm_num) habs (by omega) (by omega)
  rw [hr]
  simp only [signApply, Bool.xor_false, f2int]
  have h1024 : (2 : ℕ) ^ 10 = 1024 := by norm_num
  rcases le_or_lt (0 : ℤ) eZ with hez | hez
  · rw [if_pos hez] at htr
    simp only [if_pos hez]
    constructor <;> split_ifs <;> omega
  · rw [if_neg (not_le.mpr hez)] at htr
    simp only [if_neg (not_le.mpr hez)]
    generalize hmag : m2 / 2 ^ (-eZ).toNat = mag at htr ⊢
    constructor <;> split_ifs <;> omega

/-- `normDown` only decreases `e`, by at most `fuel`. -/
theorem normDown_e_bound (fuel : ℕ) (d : ℤ) (h : F64) (e : ℤ) (g : F64) :
    e - fuel ≤ (normDown fuel d h e g).1 ∧ (normDown fuel d h e g).1 ≤ e := by
  induction fuel generalizing e g with
  | zero =>
    simp only [normDown]
    omega
  | succ k ih =>
    simp only [normDown]
    split_ifs with hc
    · have hh := ih (e - 1) (fmul h (pow10 (d - (e - 1))))
      omega
    · omega

/-- `normUp` only increases `e`, by at most `fuel`. -/
theorem normUp_e_bound (fuel : ℕ) (d : ℤ) (h : F64) (e : ℤ) (g : F64) :
    e ≤ (normUp fuel d h e g).1 ∧ (normUp fuel d h e g).1 ≤ e + fuel := by
  induction fuel generalizing e g with
  | zero =>
    simp only [normUp]
    omega
  | succ k ih =>
    simp only [normUp]
    split_ifs with hc
    · have hh := ih (e + 1) (fmul h (pow10 (d - (e + 1))))
      omega
    · omega

/-- Combined drift of the two normalisation loops of the scaling stage. -/
theorem normchain_bound_abs (d : ℤ) (h g : F64) (e0 : ℤ)
    (hl : -1024 ≤ e0) (hu : e0 ≤ 1024) :
    -2224 ≤ (normUp 1200 d h (normDown 1200 d h e0 g).1 (normDown 1200 d h e0 g).2).1 ∧
      (normUp 1200 d h (normDown 1200 d h e0 g).1 (normDown 1200 d h e0 g).2).1 ≤ 2224 := by
  have h1 := normDown_e_bound 1200 d h e0 g
  have h2 := normUp_e_bound 1200 d h (normDown 1200 d h e0 g).1 (normDown 1200 d h e0 g).2
  omega

/-- After the scaling stage the decimal exponent lies in `[-2224, 2224]`
for every well-formed finite input. -/
theorem scaleToDecimal_e_bound (s : Bool) (m : ℕ) (e : ℤ) (hw : WfFin m e) :
    -2224 ≤ (scaleToDecimal (.fin s m e)).1 ∧ (scaleToDecimal (.fin s m e)).1 ≤ 2224 := by
  have hest := estimateE_bound s m e hw
  simp only [scaleToDecimal]
  split_ifs with hz hr
  · exact normchain_bound_abs _ _ _ _ hest.1 hest.2
  · exact normchain_bound_abs _ _ _ _ hest.1 hest.2
  · constructor <;> norm_num

/-- Each correction-loop iteration moves `e` by at most one. -/
theorem corrLoop_e_drift (fuel : ℕ) (f : F64) (s : List ℕ) (e : ℤ) :
    e - fuel ≤ (corrLoop fuel f s e).2 ∧ (corrLoop fuel f s e).2 ≤ e + fuel := by
  induction fuel generalizing s e with
  | zero =>
    simp only [corrLoop]
    omega
  | succ k ih =>
    simp only [corrLoop]
    have ha1 := ih (xadd s 16 1).1 (e - 1)
    have ha2 := ih (xadd s 16 1).1 e
    have hs1 := ih (xsub s 16 1).1 (e + 1)
    have hs2 := ih (xsub s 16 1).1 e
    split_ifs <;> omega

/-- A successful fast path keeps `e` or bumps it by one. -/
theorem fastTry_e_drift {f : F64} {s : List ℕ} {e : ℤ} {r : List ℕ × ℤ}
    (h : fastTry f s e = some r) : r.2 = e ∨ r.2 = e + 1 := by
  simp only [fastTry] at h
  split_ifs at h
  all_goals first
    | exact Option.noConfusion h
    | (injection h with h2; subst h2; exact Or.inl rfl)
    | (injection h with h2; subst h2; exact Or.inr rfl)

/-- A successful fast path hands back a buffer that re-parses exactly to
the target magnitude: both of its `some` branches are guarded by that
very `fmtstrtod` comparison. -/
theorem fastTry_parses_back {f : F64} {s : List ℕ} {e : ℤ} {r : List ℕ × ℤ}
    (h : fastTry f s e = some r) :
    feq (fmtstrtod (digitsVal r.1) (r.2 - 16)) f = true := by
  simp only [fastTry] at h
  split_ifs at h
  all_goals first
    | exact Option.noConfusion h
    | (injection h with h2; subst h2; assumption)

/-- `genDigits` either returns the correction-loop result or a successful
fast-path result. -/
theorem genDigits_cases (f : F64) (chr : Char) (prec : ℤ) :
    genDigits f chr prec =
        corrLoop 10 f (extract 17 (scaleToDecimal f).2) (scaleToDecimal f).1 ∨
      ∃ r, fastTry f (extract 17 (scaleToDecimal f).2) (scaleToDecimal f).1 = some r ∧
        genDigits f chr prec = r := by
  simp only [genDigits]
  split_ifs
  all_goals first
    | exact Or.inl rfl
    | (cases hft : fastTry f (extract 17 (scaleToDecimal f).2) (scaleToDecimal f).1 with
       | none => exact Or.inl rfl
       | some r => exact Or.inr ⟨r, rfl, rfl⟩)

/-- The digit-generation stage keeps the decimal exponent within
`[-2235, 2235]` for every well-formed finite input. -/
theorem genDigits_e_bound (s : Bool) (m : ℕ) (e : ℤ) (chr : Char) (prec : ℤ)
    (hw : WfFin m e) :
    -2235 ≤ (genDigits (.fin s m e) chr prec).2 ∧
      (genDigits (.fin s m e) chr prec).2 ≤ 2235 := by
  have hsc := scaleToDecimal_e_bound s m e hw
  have hcl := corrLoop_e_drift 10 (.fin s m e)
    (extract 17 (scaleToDecimal (.fin s m e)).2) (scaleToDecimal (.fin s m e)).1
  rcases genDigits_cases (.fin s m e) chr prec with hcase | ⟨r, hft, hcase⟩
  · rw [hcase]
    omega
  · rw [hcase]
    rcases fastTry_e_drift hft with hfe | hfe <;> omega

/-- The decimal point reported by the rounding stage stays far from the
`9999` sentinel whenever the incoming exponent is moderate. -/
theorem roundAdjust_decpt_ne (chr : Char) (prec : ℤ) (s : List ℕ) (e : ℤ)
    (hp0 : 0 ≤ prec) (hp17 : prec ≤ 17) (hel : -2235 ≤ e) (heu : e ≤ 2235) :
    (roundAdjust chr prec s e).2 ≠ 9999 := by
  simp only [roundAdjust]
  split_ifs <;> omega

/-- The main digit path never reports `decpt = 9999` on a well-formed
finite magnitude. -/
theorem xdodtoaFin_decpt_ne (s : Bool) (m : ℕ) (e : ℤ) (chr : Char) (prec : ℤ)
    (sg : Bool) (hw : WfFin m e) (hp0 : 0 ≤ prec) (hp17 : prec ≤ 17) :
    (xdodtoaFin (.fin s m e) chr prec sg).decpt ≠ 9999 := by
  have hg := genDigits_e_bound s m e chr prec hw
  show (roundAdjust chr prec (genDigits (.fin s m e) chr prec).1
    (genDigits (.fin s m e) chr prec).2).2 ≠ 9999
  exact roundAdjust_decpt_ne chr prec _ _ hp0 hp17 hg.1 hg.2

/-!  ## Claim theorems -/

/-- Claim C1: the claim states that for every finite double `v`, shortest
mode (`requestedDigits = 0`) yields digits and `decpt` such that parsing
the digits with decimal exponent `decpt - 1` returns `v` bit-identically.
The code violates this: at `fBad = 8.723303909494431e-29` the conversion
returns the digit string `87233039094944305` with `decpt = -28`, and
parsing that back gives a double one ulp below `fBad`.  This theorem
evaluates the code at the failing input. -/
theorem c1_roundtrip_fails_at_fBad :
    kendtoa fBad 0 0 =
      ⟨['8', '7', '2', '3', '3', '0', '3', '9', '0', '9', '4', '9', '4', '4', '3', '0', '5'],
        -28, false⟩ ∧
    parseDecimal (kendtoa fBad 0 0).digits ((kendtoa fBad 0 0).decpt - 1) =
      .fin false 7781447110999253 (-146) ∧
    parseDecimal (kendtoa fBad 0 0).digits ((kendtoa fBad 0 0).decpt - 1) ≠ fBad := by
  decide

/-- Claim C2: the claim states that in the correction loop a carry out of
position 0 sets that digit to `'1'` and increments `e`, and a borrow past
position 0 sets the digit to `'9'` and decrements `e`.  The code does the
opposite on both sides: one loop iteration from the all-nines buffer with
a target just above the parsed value carries out and moves `e` from `0`
down to `-1`, and one iteration from the all-zeros buffer with a target
below the parsed value borrows out and moves `e` from `0` up to `1`. -/
theorem c2_loop_carry_borrow_move_e_oppositely :
    corrLoop 1 fTenUp (List.replicate 17 9) 0 = (1 :: List.replicate 16 0, -1) ∧
    (-1 : ℤ) ≠ 0 + 1 ∧
    corrLoop 1 (F64.fin true 1 0) (List.replicate 17 0) 0 = (List.replicate 17 9, 1) ∧
    (1 : ℤ) ≠ 0 - 1 := by
  decide

/-- Claim C3 (counterexample): the claim predicts internal precision
`requestedDigits - 1 = 0` for `requestedDigits = 1` in general mode, but
`kendtoa` computes precision 17 (full precision) there. -/
theorem c3_counterexample_ndigits_one :
    kendtoaPrec (modeChr 0) 1 = 17 ∧ (17 : ℤ) ≠ 1 - 1 := by
  decide

/-- Claim C3 (amended): for exponential and general display modes the
precision passed to the digit generator is `requestedDigits - 1` clamped
to at most 17 whenever `requestedDigits > 1`, while both
`requestedDigits = 0` and `requestedDigits = 1` select the full 17-digit
precision. -/
theorem c3_amended_precision_mapping (mode nd : ℤ) (h : modeChr mode ≠ 'f') :
    (1 < nd → kendtoaPrec (modeChr mode) nd = min (nd - 1) 17) ∧
    (nd = 0 → kendtoaPrec (modeChr mode) nd = 17) ∧
    (nd = 1 → kendtoaPrec (modeChr mode) nd = 17) := by
  unfold kendtoaPrec
  refine ⟨fun h1 => ?_, fun h0 => ?_, fun h1 => ?_⟩ <;>
    simp only [h, ne_eq, not_false_iff, true_and] <;>
    split_ifs <;> omega

/-- Claim C3 (witness): instantiating the amended mapping at general mode
with `requestedDigits = 4` gives internal precision 3. -/
theorem c3_amended_precision_mapping_witness :
    modeChr 0 ≠ 'f' ∧ kendtoaPrec (modeChr 0) 4 = min (4 - 1) 17 :=
  ⟨by decide, (c3_amended_precision_mapping 0 4 (by decide)).1 (by decide)⟩

/-- Claim C4 (counterexample): the claim states that removing the
fast-path decimal-rounding block never changes the result tuple of
`xdodtoa`.  At `0.99` in general format with precision 17 the two
variants return different digit strings. -/
theorem c4_counterexample_f099 :
    xdodtoa f099 'g' 17 ≠ xdodtoaNoFast f099 'g' 17 := by
  decide

/-- Claim C4 (amended): the fast path is not result-invariant — it can
select a different decimal representation than the correction loop, so
removing it changes results, not only performance.  What survives its
removal, for every input, format character and precision: the sign
component is identical, and the two digit generators can only disagree
when the fast path succeeds, in which case the fast path's 17-digit
buffer re-parses exactly to the scaled magnitude.  At `0.99` in general
format with precision 17 the divergence is concrete: the fast path
returns `99000000000000000`, the loop-only variant `99000000000000003`,
both with `decpt = 0` and positive sign, and both of these digit strings
parse back to exactly `0.99`. -/
theorem c4_amended_fast_path_changes_digits_not_value :
    (∀ (f : F64) (chr0 : Char) (prec0 : ℤ),
      (xdodtoa f chr0 prec0).sign = (xdodtoaNoFast f chr0 prec0).sign) ∧
    (∀ (f : F64) (chr : Char) (prec : ℤ),
      genDigits f chr prec = genDigitsNoFast f chr prec ∨
      ∃ r, fastTry f (extract 17 (scaleToDecimal f).2) (scaleToDecimal f).1 = some r ∧
        genDigits f chr prec = r ∧
        feq (fmtstrtod (digitsVal r.1) (r.2 - 16)) f = true) ∧
    xdodtoa f099 'g' 17 =
      ⟨['9', '9', '0', '0', '0', '0', '0', '0', '0', '0', '0', '0', '0', '0', '0', '0', '0'],
        0, false⟩ ∧
    xdodtoaNoFast f099 'g' 17 =
      ⟨['9', '9', '0', '0', '0', '0', '0', '0', '0', '0', '0', '0', '0', '0', '0', '0', '3'],
        0, false⟩ ∧
    parseDecimal (xdodtoa f099 'g' 17).digits ((xdodtoa f099 'g' 17).decpt - 1) = f099 ∧
    parseDecimal (xdodtoaNoFast f099 'g' 17).digits ((xdodtoaNoFast f099 'g' 17).decpt - 1) =
      f099 := by
  refine ⟨?_, ?_, by decide, by decide, by decide, by decide⟩
  · intro f chr0 prec0
    simp only [xdodtoa, xdodtoaC, xdodtoaNoFast, xdodtoaFin, xdodtoaFinNoFast]
    split_ifs <;> rfl
  · intro f chr prec
    rcases genDigits_cases f chr prec with hcase | ⟨r, hft, hcase⟩
    · left
      rw [hcase]
      rfl
    · right
      exact ⟨r, hft, hcase, fastTry_parses_back hft⟩

/-- Claim C5: the claim states that when the correction loop exhausts its
10-iteration bound without the re-parsed value equalling the original
magnitude, the program aborts rather than returning, and that
non-convergence is never silently reported as a normal result.  The code
has no such abort: at `fBad` the loop ends with a buffer that still does
not parse back to the input, and `kendtoa` nevertheless returns it as an
ordinary result (finite `decpt`, nonempty digits). -/
theorem c5_nonconvergence_returns_normally :
    fmtstrtod (digitsVal (genDigits fBad 'g' 17).1) ((genDigits fBad 'g' 17).2 - 16) ≠ fBad ∧
    (kendtoa fBad 0 0).decpt = -28 ∧
    (kendtoa fBad 0 0).digits.length = 17 := by
  decide

/-- Claim C7: `kendtoa` on the double `123.456` in general mode with
`requestedDigits = 4` returns digits `1235`, `decpt = 3`, positive sign. -/
theorem c7_scenario_123456 :
    kendtoa f123456 0 4 = ⟨['1', '2', '3', '5'], 3, false⟩ := by
  decide

/-- Claim C8: for every finite double converted in shortest mode
(`requestedDigits = 0`, general or exponential style — the styles whose
kept-digit count cannot collapse, cf. C10 for fixed style), the digit
string returned by `kendtoa` up to the `rve` end cursor, i.e. after
trailing-zero trimming, has length at least 1 and at most 17. -/
theorem c8_shortest_digit_count_bounds (s : Bool) (m : ℕ) (e : ℤ) (mode : ℤ)
    (hw : WfFin m e) (hchr : modeChr mode ≠ 'f') :
    1 ≤ (kendtoa (.fin s m e) mode 0).digits.length ∧
    (kendtoa (.fin s m e) mode 0).digits.length ≤ 17 := by
  have hred : kendtoa (.fin s m e) mode 0 =
      ⟨trimZeros (xdodtoaC (.fin s m e) (modeChr mode) 17).digits,
        (xdodtoaC (.fin s m e) (modeChr mode) 17).decpt,
        (xdodtoaC (.fin s m e) (modeChr mode) 17).sign⟩ := by
    simp only [kendtoa, xdodtoa]
    rw [modeChr_ne_F, kendtoaPrec_zero, show clampPrec 17 = 17 from by decide]
  rw [hred]
  have hlen : (xdodtoaC (.fin s m e) (modeChr mode) 17).digits.length = 17 := by
    rw [xdodtoaC_fin_eq s (modeChr mode) 17 hw]
    simp only [xdodtoaFin, List.length_map]
    exact roundAdjust_nonf_length hchr (genDigits_length _ (modeChr mode) 17) _
  constructor
  · exact trimZeros_length_pos (List.ne_nil_of_length_pos (by omega))
  · exact (trimZeros_length_le _).trans (le_of_eq hlen)

/-- Claim C8 (witness): the double `1.0` in shortest general mode has a
digit count within `[1, 17]`. -/
theorem c8_shortest_digit_count_bounds_witness :
    1 ≤ (kendtoa (.fin false 1 0) 0 0).digits.length ∧
    (kendtoa (.fin false 1 0) 0 0).digits.length ≤ 17 :=
  c8_shortest_digit_count_bounds false 1 0 0 (by decide) (by decide)

/-- On a zero input the sign test is false, so `xdodtoaC` runs the main
path on the input itself. -/
theorem xdodtoaC_zero_fin (s : Bool) (chr : Char) (q : ℤ) :
    xdodtoaC (.fin s 0 0) chr q = xdodtoaFin (.fin s 0 0) chr q false := by
  have h := xdodtoaC_fin_eq (m := 0) (e := 0) s chr q ⟨by norm_num, by norm_num, by norm_num⟩
  rw [flt_fzero_false s (Or.inr rfl)] at h
  simpa using h

/-- Zero of either sign converts identically in every format and clamped
precision: the digit buffer is all zeros, `e` stays 0, trimming leaves a
single `'0'`, and the sign flag is false. -/
theorem xdodtoaFin_zero_case (chr : Char) (hchr : chr = 'e' ∨ chr = 'f' ∨ chr = 'g')
    (q : ℤ) (h0 : 0 ≤ q) (h17 : q ≤ 17) :
    trimZeros (xdodtoaFin fNegZero chr q false).digits = ['0'] ∧
    (xdodtoaFin fNegZero chr q false).decpt = 1 ∧
    (xdodtoaFin fNegZero chr q false).sign = false ∧
    trimZeros (xdodtoaFin fPosZero chr q false).digits = ['0'] ∧
    (xdodtoaFin fPosZero chr q false).decpt = 1 ∧
    (xdodtoaFin fPosZero chr q false).sign = false := by
  rcases hchr with h | h | h <;> subst h <;> interval_cases q <;>
    exact ⟨by decide, by decide, by decide, by decide, by decide, by decide⟩

/-- Claim C9: `kendtoa` on `-0.0` returns `sign = false` and output
identical to that for `+0.0` — digits `0`, `decpt = 1` — in every mode
and for every requested digit count; the sign comes from the comparison
`f < 0`, which is false for negative zero. -/
theorem c9_negative_zero_sign_ignored (mode nd : ℤ) :
    kendtoa fNegZero mode nd = kendtoa fPosZero mode nd ∧
    kendtoa fNegZero mode nd = ⟨['0'], 1, false⟩ ∧
    flt fNegZero fzero = false := by
  have hb := clampPrec_bounds (kendtoaPrec (modeChr mode) nd)
  have hz := xdodtoaFin_zero_case (modeChr mode) (modeChr_cases mode) _ hb.1 hb.2
  have hred : ∀ s : Bool, kendtoa (.fin s 0 0) mode nd =
      ⟨trimZeros
          (xdodtoaFin (.fin s 0 0) (modeChr mode)
            (clampPrec (kendtoaPrec (modeChr mode) nd)) false).digits,
        (xdodtoaFin (.fin s 0 0) (modeChr mode)
          (clampPrec (kendtoaPrec (modeChr mode) nd)) false).decpt,
        (xdodtoaFin (.fin s 0 0) (modeChr mode)
          (clampPrec (kendtoaPrec (modeChr mode) nd)) false).sign⟩ := by
    intro s
    simp only [kendtoa, xdodtoa]
    rw [modeChr_ne_F, xdodtoaC_zero_fin]
  obtain ⟨hTrimN, hDecN, hSignN, hTrimP, hDecP, hSignP⟩ := hz
  simp only [fNegZero, fPosZero] at hTrimN hDecN hSignN hTrimP hDecP hSignP ⊢
  have hn : kendtoa (F64.fin true 0 0) mode nd = ⟨['0'], 1, false⟩ := by
    rw [hred true, hTrimN, hDecN, hSignN]
  have hp : kendtoa (F64.fin false 0 0) mode nd = ⟨['0'], 1, false⟩ := by
    rw [hred false, hTrimP, hDecP, hSignP]
  exact ⟨hn.trans hp.symm, hn, by decide⟩

/-- The decimal exponent after the `'f'`-format rounding add of step 8
(`xadd(s1, c2+e, 5)`): `e` bumped by the carry when one occurred.  Used
to state when the kept-digit count collapses to zero (claim C10). -/
def fRoundedE (f1 : F64) (prec : ℤ) : ℤ :=
  let g := genDigits f1 'f' prec
  if (xadd g.1 (prec + 1 + g.2) 5).2 then g.2 + 1 else g.2

/-- Claim C10: in fixed (`'f'`) mode, for a nonzero finite value small
enough that the kept-digit count `prec + 1 + e` is negative after the
rounding add (with `prec` the clamped precision derived from the
requested digit count), `xdodtoa` sets the kept-digit count to 0 and `e`
to `-prec - 1`, so `kendtoa` returns an empty digit string with
`decpt = -prec` — below the one-digit minimum that trimming otherwise
preserves. -/
theorem c10_fixed_mode_digits_collapse (s : Bool) (m : ℕ) (e : ℤ) (mode nd : ℤ)
    (hw : WfFin m e) (hm : m ≠ 0) (hchr : modeChr mode = 'f')
    (hneg : clampPrec (kendtoaPrec 'f' nd) + 1 +
        fRoundedE (F64.fin false m e) (clampPrec (kendtoaPrec 'f' nd)) < 0) :
    kendtoa (F64.fin s m e) mode nd =
      ⟨[], -(clampPrec (kendtoaPrec 'f' nd)), s⟩ := by
  simp only [kendtoa, xdodtoa]
  rw [modeChr_ne_F, hchr]
  rw [xdodtoaC_fin_eq s 'f' (clampPrec (kendtoaPrec 'f' nd)) hw]
  have hsign : flt (F64.fin s m e) fzero = s := by
    cases s
    · exact flt_fzero_false false (Or.inl rfl)
    · exact flt_fzero_true hm
  rw [hsign]
  have hf1 : (if s = true then F64.fin (!s) m e else F64.fin s m e) = F64.fin false m e := by
    cases s <;> simp
  rw [hf1]
  simp only [fRoundedE] at hneg
  simp only [xdodtoaFin, roundAdjust, if_pos (rfl : ('f' : Char) = 'f')]
  rw [if_pos hneg]
  simp only [if_pos hneg]
  simp [trimZeros, trimAux, DtoaOut.mk.injEq]

/-- Claim C10 (witness): the double `1e-4` with `mode = 3`
(fixed style) and `requestedDigits = 2` — the value rounds to zero at two
digits after the point — yields the empty digit string with
`decpt = -2`. -/
theorem c10_fixed_mode_digits_collapse_witness :
    WfFin 7378697629483821 (-66) ∧
    kendtoa (F64.fin false 7378697629483821 (-66)) 3 2 = ⟨[], -2, false⟩ :=
  ⟨by decide,
    (c10_fixed_mode_digits_collapse false 7378697629483821 (-66) 3 2 (by decide) (by decide)
        (by decide) (by decide)).trans (by decide)⟩

/-- Claim C6: for every mode and every requested digit count, `kendtoa`
returns digits `"nan"` with `decpt = 9999` and `sign = false` on NaN,
digits `"inf"` with `decpt = 9999` and `sign = false` on `+Infinity`,
the same digits with `sign = true` on `-Infinity`; and `decpt = 9999` is
returned only for these non-finite inputs — never for a (well-formed)
finite double. -/
theorem c6_sentinel_decpt_iff_nonfinite :
    (∀ mode nd : ℤ, kendtoa .nan mode nd = ⟨['n', 'a', 'n'], 9999, false⟩) ∧
    (∀ mode nd : ℤ, kendtoa (.inf false) mode nd = ⟨['i', 'n', 'f'], 9999, false⟩) ∧
    (∀ mode nd : ℤ, kendtoa (.inf true) mode nd = ⟨['i', 'n', 'f'], 9999, true⟩) ∧
    (∀ (s : Bool) (m : ℕ) (e : ℤ), WfFin m e → ∀ mode nd : ℤ,
      (kendtoa (.fin s m e) mode nd).decpt ≠ 9999) := by
  refine ⟨fun _ _ => rfl, fun _ _ => rfl, fun _ _ => rfl, ?_⟩
  intro s m e hw mode nd
  have hb := clampPrec_bounds (kendtoaPrec (modeChr mode) nd)
  show (xdodtoa (.fin s m e) (modeChr mode) (kendtoaPrec (modeChr mode) nd)).decpt ≠ 9999
  simp only [xdodtoa, modeChr_ne_F]
  rw [xdodtoaC_fin_eq s (modeChr mode) (clampPrec (kendtoaPrec (modeChr mode) nd)) hw]
  cases hfs : flt (.fin s m e) fzero <;>
    simp only [Bool.false_eq_true, eq_self_iff_true, if_true, if_false]
  · exact xdodtoaFin_decpt_ne s m e (modeChr mode) _ false hw hb.1 hb.2
  · exact xdodtoaFin_decpt_ne (!s) m e (modeChr mode) _ true hw hb.1 hb.2

/-- Claim C6 (witness): the finite double `1.0` in shortest mode has a
decimal point away from the sentinel. -/
theorem c6_sentinel_decpt_iff_nonfinite_witness :
    WfFin 1 0 ∧ (kendtoa (.fin false 1 0) 0 0).decpt ≠ 9999 :=
  ⟨by decide, c6_sentinel_decpt_iff_nonfinite.2.2.2 false 1 0 (by decide) 0 0⟩

end Ken
